import Mathlib

/-!
Verification development for the ignored-file discovery and caching engine
(`parseGitZOutput`, `listIgnoredFiles`, `clearIgnoredListCache`).

The engine is embedded shallowly:
* the collator comparison is modelled as case-insensitive code-point
  comparison (the source builds an `Intl.Collator` with base sensitivity,
  which on the ASCII paths exchanged with the tool compares the lower-cased
  code points);
* the JavaScript array sort with a consistent comparator is modelled as a
  stable insertion sort, which produces the same (unique) sorted-and-stable
  permutation mandated for `Array.prototype.sort`;
* byte streams from the child process are modelled as lists of characters
  delivered in arbitrary chunks, and the promise executor of
  `listIgnoredFiles` as a fold of an explicit handler-step function over the
  list of child-process events;
* the module-level `CACHE` map and the coordinator logic are modelled as an
  explicit state record with a spawn counter, and the shared in-flight
  promise as an operation identifier.
-/

/-- Lower-cased code point of a character; models how the base-sensitivity
collator of the source compares ASCII characters ignoring case. -/
def lowerVal (c : Char) : Nat := c.toLower.toNat

/-- Three-way comparison on naturals. -/
def cmpNat (m n : Nat) : Ordering :=
  if m < n then .lt else if n < m then .gt else .eq

/-- Lexicographic comparison of character lists by lower-cased code point. -/
def lexCmp : List Char → List Char → Ordering
  | [], [] => .eq
  | [], _ :: _ => .lt
  | _ :: _, [] => .gt
  | a :: as, b :: bs =>
    match cmpNat (lowerVal a) (lowerVal b) with
    | .eq => lexCmp as bs
    | o => o

/-- Model of `collator.compare` from the source, where
`collator = new Intl.Collator(undefined, \x7b sensitivity: "base" \x7d)`:
case-insensitive comparison of the two strings. -/
def collCmp (a b : String) : Ordering := lexCmp a.data b.data

/-- The non-strict order induced by the collator: a sorts no later than b. -/
def colLe (a b : String) : Prop := collCmp a b ≠ Ordering.gt

instance : DecidableRel colLe := fun a b =>
  inferInstanceAs (Decidable (collCmp a b ≠ Ordering.gt))

/-- Model of `Array.prototype.sort(collator.compare)`: the stable sorted
permutation for the collator comparison (insertion sort is stable). -/
def jsSortStable (l : List String) : List String := List.insertionSort colLe l

/-- The NUL delimiter used by the `-z` output mode. -/
def nulChar : Char := Char.ofNat 0

/-- Splits a character stream at NUL delimiters: the list of NUL-terminated
segments in order, together with the trailing unterminated remainder. -/
def nulSplit : List Char → List (List Char) × List Char
  | [] => ([], [])
  | c :: cs =>
    let r := nulSplit cs
    if c = nulChar then ([] :: r.1, r.2)
    else
      match r with
      | (s :: ss, t) => ((c :: s) :: ss, t)
      | ([], t) => ([], c :: t)

/-- Model of the JavaScript `stdout.split("\u0000")`: every segment between
NUL delimiters, including empty ones and the (possibly empty) trailing
segment. -/
def jsSplitNul (s : String) : List String :=
  ((nulSplit s.data).1 ++ [(nulSplit s.data).2]).map (fun cs => String.mk cs)

/-- Embedding of `parseGitZOutput` from the source:
`stdout.split("\u0000").filter(Boolean).sort(collator.compare)` — split on
NUL, drop empty segments, sort with the collator. -/
def parseGitZOutput (stdout : String) : List String :=
  jsSortStable ((jsSplitNul stdout).filter (fun p => p != ""))

theorem cmpNat_eq_iff (m n : Nat) : cmpNat m n = .eq ↔ m = n := by
  unfold cmpNat
  split <;> try split
  all_goals simp_all <;> omega

theorem cmpNat_gt_iff (m n : Nat) : cmpNat m n = .gt ↔ n < m := by
  unfold cmpNat
  split <;> try split
  all_goals simp_all <;> omega

theorem cmpNat_lt_iff (m n : Nat) : cmpNat m n = .lt ↔ m < n := by
  unfold cmpNat
  split <;> try split
  all_goals simp_all <;> omega

theorem lexCmp_gt_swap : ∀ a b : List Char, lexCmp a b = .gt → lexCmp b a = .lt := by
  intro a
  induction a with
  | nil => intro b h; cases b <;> simp [lexCmp] at h
  | cons x xs ih =>
    intro b h
    cases b with
    | nil => simp [lexCmp]
    | cons y ys =>
      simp only [lexCmp] at h ⊢
      rcases hc : cmpNat (lowerVal x) (lowerVal y) with _ | _ | _ <;> rw [hc] at h
      · simp at h
      · rw [(cmpNat_eq_iff _ _).mp hc |>.symm] at *
        rw [hc]
        exact ih ys h
      · have : lowerVal y < lowerVal x := (cmpNat_gt_iff _ _).mp hc
        rw [(cmpNat_lt_iff _ _).mpr this]

theorem lexCmp_eq_iff : ∀ a b : List Char,
    lexCmp a b = .eq ↔ a.map lowerVal = b.map lowerVal := by
  intro a
  induction a with
  | nil => intro b; cases b <;> simp [lexCmp]
  | cons x xs ih =>
    intro b
    cases b with
    | nil => simp [lexCmp]
    | cons y ys =>
      simp only [lexCmp, List.map_cons, List.cons_eq_cons]
      rcases hc : cmpNat (lowerVal x) (lowerVal y) with _ | _ | _
      · have : ¬ lowerVal x = lowerVal y := by
          have := (cmpNat_lt_iff _ _).mp hc; omega
        simp [this]
      · have := (cmpNat_eq_iff _ _).mp hc
        simp [this, ih]
      · have : ¬ lowerVal x = lowerVal y := by
          have := (cmpNat_gt_iff _ _).mp hc; omega
        simp [this]

theorem lexCmp_notGt_trans : ∀ a b c : List Char,
    lexCmp a b ≠ .gt → lexCmp b c ≠ .gt → lexCmp a c ≠ .gt := by
  intro a
  induction a with
  | nil =>
    intro b c _ _
    cases c <;> simp [lexCmp]
  | cons x xs ih =>
    intro b c h1 h2
    cases b with
    | nil => cases c <;> simp [lexCmp] at h1 ⊢
    | cons y ys =>
      cases c with
      | nil => simp [lexCmp] at h2
      | cons z zs =>
        simp only [lexCmp] at h1 h2 ⊢
        rcases hxy : cmpNat (lowerVal x) (lowerVal y) with _ | _ | _ <;> rw [hxy] at h1
        · rcases hyz : cmpNat (lowerVal y) (lowerVal z) with _ | _ | _ <;> rw [hyz] at h2
          · have hx := (cmpNat_lt_iff _ _).mp hxy
            have hy := (cmpNat_lt_iff _ _).mp hyz
            rw [(cmpNat_lt_iff (lowerVal x) (lowerVal z)).mpr (by omega)]
            simp
          · have hy := (cmpNat_eq_iff _ _).mp hyz
            rw [← hy, hxy]
            simp
          · simp at h2
        · have hx := (cmpNat_eq_iff _ _).mp hxy
          rcases hyz : cmpNat (lowerVal y) (lowerVal z) with _ | _ | _ <;> rw [hyz] at h2
          · rw [hx, hyz]
            simp
          · rw [hx, hyz]
            exact ih ys zs h1 h2
          · simp at h2
        · simp at h1

instance : IsTotal String colLe := by
  constructor
  intro a b
  unfold colLe collCmp
  rcases h : lexCmp a.data b.data with _ | _ | _
  · left; simp [h]
  · left; simp [h]
  · right
    have := lexCmp_gt_swap _ _ h
    simp [this]

instance : IsTrans String colLe := by
  constructor
  intro a b c h1 h2
  exact lexCmp_notGt_trans _ _ _ h1 h2

theorem collCmp_eq_congr {a b t : String} (ha : collCmp a t = .eq)
    (hb : collCmp b t = .eq) : collCmp a b = .eq := by
  unfold collCmp at *
  rw [lexCmp_eq_iff] at *
  rw [ha, hb]

theorem colLe_of_eq {a b : String} (h : collCmp a b = .eq) : colLe a b := by
  unfold colLe
  simp [h]

/-- Inserting into the stable sort never moves an element past another element
of the same collation equivalence class (positive-membership case). -/
theorem filter_orderedInsert_eqClass_pos (t a : String) (l : List String)
    (ha : collCmp a t = .eq) :
    (List.orderedInsert colLe a l).filter (fun y => decide (collCmp y t = Ordering.eq))
      = a :: l.filter (fun y => decide (collCmp y t = Ordering.eq)) := by
  induction l with
  | nil => simp [List.orderedInsert, ha]
  | cons y ys ih =>
    by_cases hy : colLe a y
    · simp [List.orderedInsert, hy, List.filter_cons, ha]
    · have hyE : ¬ collCmp y t = .eq := by
        intro hEq
        exact hy (colLe_of_eq (collCmp_eq_congr ha hEq))
      simp only [List.orderedInsert, if_neg hy, List.filter_cons]
      rw [ih]
      simp [hyE]

/-- Inserting an element outside the class leaves that class untouched. -/
theorem filter_orderedInsert_eqClass_neg (t a : String) (l : List String)
    (ha : ¬ collCmp a t = .eq) :
    (List.orderedInsert colLe a l).filter (fun y => decide (collCmp y t = Ordering.eq))
      = l.filter (fun y => decide (collCmp y t = Ordering.eq)) := by
  induction l with
  | nil => simp [List.orderedInsert, ha]
  | cons y ys ih =>
    by_cases hy : colLe a y
    · simp [List.orderedInsert, hy, List.filter_cons, ha]
    · simp only [List.orderedInsert, if_neg hy, List.filter_cons]
      rw [ih]

/-- Stability of the modelled JavaScript sort: each collation equivalence
class appears in the output in its original input order. -/
theorem jsSortStable_filter_eqClass (l : List String) (t : String) :
    (jsSortStable l).filter (fun y => decide (collCmp y t = Ordering.eq))
      = l.filter (fun y => decide (collCmp y t = Ordering.eq)) := by
  induction l with
  | nil => rfl
  | cons a l ih =>
    rw [show jsSortStable (a :: l) = List.orderedInsert colLe a (jsSortStable l) from rfl]
    by_cases ha : collCmp a t = .eq
    · rw [filter_orderedInsert_eqClass_pos t a _ ha, ih]
      simp [List.filter_cons, ha]
    · rw [filter_orderedInsert_eqClass_neg t a _ ha, ih]
      simp [List.filter_cons, ha]

theorem jsSortStable_perm (l : List String) : List.Perm (jsSortStable l) l :=
  List.perm_insertionSort colLe l

theorem jsSortStable_sorted (l : List String) : List.Sorted colLe (jsSortStable l) :=
  List.sorted_insertionSort colLe l

/-- Result of `listIgnoredFiles`: the sorted path list and the truncation
flag, as in the source `ListResult` type. -/
structure ListResult where
  files : List String
  truncated : Bool
deriving DecidableEq

/-- A JavaScript error value as observed by the catch handler of the source:
its `message` text and its `stderr` property (empty when absent). -/
structure JsError where
  message : String
  stderrTxt : String
deriving DecidableEq

/-- The rejection used by the abort handler of the source. -/
def cancelledErr : JsError := ⟨"Operation cancelled", ""⟩

/-- The rejection used when the tool reports a fatal condition. -/
def notARepoErr : JsError := ⟨"Not a Git repository or Git unavailable", ""⟩

/-- Model of `String.prototype.includes`: pattern occurs as a contiguous
subsequence. `leadEq p h` checks that `p` occurs at the front of `h`. -/
def leadEq : List Char → List Char → Bool
  | [], _ => true
  | _ :: _, [] => false
  | p :: ps, h :: hs => p == h && leadEq ps hs

/-- Substring occurrence anywhere in the haystack. -/
def hasSub (pat : List Char) : List Char → Bool
  | [] => pat.isEmpty
  | h :: hs => leadEq pat (h :: hs) || hasSub pat hs

/-- Model of the source's `s.includes(pat)` checks. -/
def strIncludes (s pat : String) : Bool := hasSub pat.data s.data

/-- Events delivered to the promise executor of `listIgnoredFiles`: stdout
data chunks, stderr chunks, a spawn error, process close with an exit code
(ignored by the source), and the firing of the abort signal. -/
inductive ChildEvent where
  | data (chunk : List Char)
  | stderrData (s : String)
  | errorEvt (e : JsError)
  | close (code : Int)
  | abortSig
deriving DecidableEq

/-- Outcome of one run of the `onData` scanning loop: either more input may
follow (with the retained partial `buffer` and accumulated `files`), or the
`maxItems` cap was reached and the scan finished truncated. -/
inductive DataStep where
  | cont (buffer : List Char) (files : List String)
  | done (files : List String)
deriving DecidableEq

/-- Embedding of the scanning loop in `onData` from the source: walk the
concatenated data, cut a piece at each NUL, push non-empty pieces, and after
every delimiter stop as soon as `files.length >= maxItems`; whatever follows
the last delimiter is retained as the new buffer. `acc` is the partial piece
accumulated since the previous delimiter. -/
def procAux (maxIt : Nat) : List Char → List Char → List String → DataStep
  | [], acc, files => .cont acc files
  | c :: cs, acc, files =>
    if c = nulChar then
      let files' := if acc.isEmpty then files else files ++ [String.mk acc]
      if maxIt ≤ files'.length then .done files'
      else procAux maxIt cs [] files'
    else procAux maxIt cs (acc ++ [c]) files

deriving instance DecidableEq for Except

/-- State of the promise executor: the retained partial buffer, accumulated
files, the truncation flag, whether `cleanup()` detached the listeners,
the settled value of the promise (if any), whether `child.kill()` was
called, the last `CACHE.set` performed by `finish`, and how many stdout
chunks were consumed. -/
structure ExecState where
  buffer : List Char
  files : List String
  truncated : Bool
  cleaned : Bool
  settled : Option (Except JsError ListResult)
  killed : Bool
  cacheWrite : Option ListResult
  consumed : Nat
deriving DecidableEq

/-- A promise settles only once; later resolutions and rejections are
no-ops. -/
def settleOnce (st : Option (Except JsError ListResult))
    (r : Except JsError ListResult) : Option (Except JsError ListResult) :=
  match st with
  | some r0 => some r0
  | none => some r

/-- Embedding of `finish` from the source: sort the accumulated files with
the collator, build the `ListResult`, store it in the cache entry for the
key, and resolve the promise with it. -/
def finishStep (st : ExecState) : ExecState :=
  let sorted := jsSortStable st.files
  let v : ListResult := ⟨sorted, st.truncated⟩
  { st with files := sorted, cacheWrite := some v,
            settled := settleOnce st.settled (Except.ok v) }

/-- One event handled by the executor. After `cleanup()` all listeners are
detached, so a cleaned state ignores every further event. The branches are
the handlers `onData`, `onStderr`, `onError`, `onClose` and `onAbort` of the
source. -/
def execStep (maxIt : Nat) (st : ExecState) (ev : ChildEvent) : ExecState :=
  if st.cleaned then st
  else
    match ev with
    | .data chunk =>
      let st1 := { st with consumed := st.consumed + 1 }
      match procAux maxIt (st1.buffer ++ chunk) [] st1.files with
      | .cont b f => { st1 with buffer := b, files := f }
      | .done f =>
          finishStep { st1 with files := f, truncated := true,
                                cleaned := true, killed := true }
    | .stderrData s =>
      if strIncludes s "fatal" then
        { st with cleaned := true,
                  settled := settleOnce st.settled (Except.error notARepoErr) }
      else st
    | .errorEvt e =>
      { st with cleaned := true,
                settled := settleOnce st.settled (Except.error e) }
    | .close _ =>
      let st1 :=
        if st.buffer.isEmpty then st
        else if String.mk st.buffer = "" then st
        else { st with files := st.files ++ [String.mk st.buffer] }
      finishStep st1
    | .abortSig =>
      { st with killed := true, cleaned := true,
                settled := settleOnce st.settled (Except.error cancelledErr) }

/-- Initial executor state. A signal that is already aborted at call time
runs `onAbort` synchronously before any listener is attached: the child is
killed, listeners are never attached (`cleaned`), and the promise is already
rejected with the cancellation error, with no output consumed. -/
def initExec (preAborted : Bool) : ExecState :=
  if preAborted then
    ⟨[], [], false, true, some (Except.error cancelledErr), true, none, 0⟩
  else
    ⟨[], [], false, false, none, false, none, 0⟩

/-- The executor over a full event trace. -/
def runExec (maxIt : Nat) (preAborted : Bool) (evs : List ChildEvent) : ExecState :=
  evs.foldl (execStep maxIt) (initExec preAborted)

/-- Embedding of the catch handler of the source: rethrow errors whose
message already says the root is not a repository, map errors whose stderr
mentions the fatal marker to the repository error, rethrow the rest. -/
def catchMap (e : JsError) : JsError :=
  if strIncludes e.message "Not a Git repository" then e
  else if strIncludes e.stderrTxt "fatal" then notARepoErr
  else e

/-- The settlement observed by every caller awaiting the scan promise,
after the catch mapping; `none` when the trace never settles the promise. -/
def scanOutcome (maxIt : Nat) (preAborted : Bool) (evs : List ChildEvent) :
    Option (Except JsError ListResult) :=
  match (runExec maxIt preAborted evs).settled with
  | some (Except.ok v) => some (Except.ok v)
  | some (Except.error e) => some (Except.error (catchMap e))
  | none => none

/-- A scan whose stdout arrives in the given chunks and which then closes
with the given exit code. -/
def scanStream (maxIt : Nat) (chunks : List (List Char)) (code : Int) :
    Option (Except JsError ListResult) :=
  scanOutcome maxIt false (chunks.map ChildEvent.data ++ [ChildEvent.close code])

/-- The non-empty NUL-terminated segments of a character stream, as
strings. -/
def segStrings (all : List Char) : List String :=
  ((nulSplit all).1.filter (fun p => ¬ p.isEmpty)).map (fun p => String.mk p)

/-- The trailing unterminated segment flushed by `onClose`, when
non-empty. -/
def tailSeg (all : List Char) : List String :=
  if (nulSplit all).2.isEmpty then [] else [String.mk (nulSplit all).2]

/-- Cache entries of the module-level `CACHE` map: an optional resolved
value, its expiry timestamp, and an optional in-flight operation (the shared
promise, modelled by an operation identifier). -/
structure CacheEntry where
  value : Option ListResult
  expires : Nat
  inflight : Option Nat
deriving DecidableEq

/-- The cache map, modelled as an association list where the most recent
`set` for a key shadows older entries. -/
abbrev Cache := List (String × CacheEntry)

def cacheGet (c : Cache) (k : String) : Option CacheEntry :=
  match c with
  | [] => none
  | (k', e) :: rest => if k' = k then some e else cacheGet rest k

def cacheSet (c : Cache) (k : String) (e : CacheEntry) : Cache := (k, e) :: c

def cacheDelete (c : Cache) (k : String) : Cache :=
  c.filter (fun p => p.1 != k)

/-- Coordinator state: the cache, the next fresh operation identifier, and
how many external processes have been spawned. -/
structure SysState where
  cache : Cache
  nextOp : Nat
  spawnCount : Nat
deriving DecidableEq

/-- The cache TTL from the source (`CACHE_TTL_MS`). -/
def ttlMs : Nat := 10000

/-- The cache key from the source: the template literal joining the working
directory and the item cap with a double colon. -/
def mkKey (cwd : String) (maxItems : Nat) : String :=
  cwd ++ "::" ++ toString maxItems

/-- What a call to `listIgnoredFiles` hands back: a cached value (a resolved
promise of that exact object), the existing in-flight promise, or a freshly
started scan promise. -/
inductive CallOutcome where
  | value (v : ListResult)
  | pending (op : Nat)
  | started (op : Nat)
deriving DecidableEq

/-- The truthiness test on line 58 of the source: the entry has a (truthy)
value and its expiry has not passed. -/
def hitValue (e : CacheEntry) (now : Nat) : Option ListResult :=
  match e.value with
  | some v => if now < e.expires then some v else none
  | none => none

/-- Starting a new scan: spawn the child (spawn counter increments), record
the in-flight entry for the key with expiry `now + TTL`, and return the new
promise. -/
def startNewScan (s : SysState) (key : String) (now : Nat) :
    CallOutcome × SysState :=
  (CallOutcome.started s.nextOp,
   { cache := cacheSet s.cache key ⟨none, now + ttlMs, some s.nextOp⟩,
     nextOp := s.nextOp + 1,
     spawnCount := s.spawnCount + 1 })

/-- Embedding of the synchronous part of `listIgnoredFiles` from the source:
compute the key, return an unexpired cached value if present, else return an
existing in-flight promise, else start a new scan. The `aborted` flag of the
caller's signal is deliberately unused here: the source only consults the
signal inside the promise executor, after the cache lookup. -/
def listIgnoredFilesCall (s : SysState) (cwd : String) (maxItems : Nat)
    (now : Nat) (aborted : Bool) : CallOutcome × SysState :=
  let key := mkKey cwd maxItems
  match cacheGet s.cache key with
  | some e =>
    match hitValue e now with
    | some v => (CallOutcome.value v, s)
    | none =>
      match e.inflight with
      | some p => (CallOutcome.pending p, s)
      | none => startNewScan s key now
  | none => startNewScan s key now

/-- Embedding of scan completion: the `CACHE.set` performed by `finish` (if
the scan resolved) followed by the `finally` handler clearing the in-flight
marker of whatever entry is present for the key. -/
def completeScan (s : SysState) (key : String) (finishedAt : Nat)
    (w : Option ListResult) : SysState :=
  let c1 : Cache :=
    match w with
    | some v => cacheSet s.cache key ⟨some v, finishedAt + ttlMs, none⟩
    | none => s.cache
  let c2 : Cache :=
    match cacheGet c1 key with
    | some e => cacheSet c1 key { e with inflight := none }
    | none => c1
  { s with cache := c2 }

/-- Embedding of `clearIgnoredListCache` from the streaming engine source:
no parameter, clears the whole map. -/
def clearIgnoredListCache (_c : Cache) : Cache := []

/-- Embedding of the `clearIgnoredListCache(cwd?)` variant of the engine
(the version whose cache keys also join the item cap): with an argument it
deletes the entry whose key is exactly `cwd`, without an argument it clears
the map. -/
def clearIgnoredListCacheScoped (c : Cache) (cwd : Option String) : Cache :=
  match cwd with
  | some w => cacheDelete c w
  | none => []

theorem execStep_cleaned_frozen (maxIt : Nat) (st : ExecState) (ev : ChildEvent)
    (h : st.cleaned = true) : execStep maxIt st ev = st := by
  unfold execStep
  simp [h]

theorem foldl_execStep_cleaned_frozen (maxIt : Nat) (st : ExecState)
    (evs : List ChildEvent) (h : st.cleaned = true) :
    evs.foldl (execStep maxIt) st = st := by
  induction evs with
  | nil => rfl
  | cons ev evs ih =>
    rw [List.foldl_cons, execStep_cleaned_frozen maxIt st ev h, ih]

theorem settleOnce_of_settled (r0 r : Except JsError ListResult)
    (s : Option (Except JsError ListResult)) (h : s = some r0) :
    settleOnce s r = some r0 := by
  rw [h]
  rfl

theorem settleOnce_error_elim (s : Option (Except JsError ListResult))
    (r : Except JsError ListResult) (e : JsError)
    (h : settleOnce s r = some (Except.error e)) :
    s = some (Except.error e) ∨ (s = none ∧ r = Except.error e) := by
  rcases s with _ | r0
  · right
    exact ⟨rfl, by simpa [settleOnce] using h⟩
  · left
    simpa [settleOnce] using h

theorem settleOnce_ok_exists (s : Option (Except JsError ListResult))
    (v : ListResult) (hne : ∀ e, s ≠ some (Except.error e)) :
    ∃ u, settleOnce s (Except.ok v) = some (Except.ok u) := by
  rcases s with _ | r0
  · exact ⟨v, rfl⟩
  · rcases r0 with e | u
    · exact absurd rfl (hne e)
    · exact ⟨u, rfl⟩

theorem finishStep_settled (st : ExecState) :
    (finishStep st).settled
      = settleOnce st.settled (Except.ok ⟨jsSortStable st.files, st.truncated⟩) := rfl

theorem finishStep_cleaned (st : ExecState) : (finishStep st).cleaned = st.cleaned := rfl

theorem execStep_settled_mono (maxIt : Nat) (st : ExecState) (ev : ChildEvent)
    (r : Except JsError ListResult) (h : st.settled = some r) :
    (execStep maxIt st ev).settled = some r := by
  unfold execStep
  by_cases hc : st.cleaned = true
  · simp [hc, h]
  · simp only [hc, Bool.false_eq_true, if_false]
    cases ev with
    | data chunk =>
      rcases hp : procAux maxIt (st.buffer ++ chunk) [] st.files with _ | f
      · simp [hp, h]
      · simp [hp, finishStep_settled, settleOnce_of_settled r _ _ h]
    | stderrData s =>
      by_cases hf : strIncludes s "fatal" = true
      · simp [hf, settleOnce_of_settled r _ _ h]
      · simp [hf, h]
    | errorEvt e => simp [settleOnce_of_settled r _ _ h]
    | close code =>
      by_cases hb : st.buffer.isEmpty
      · simp [hb, finishStep_settled, settleOnce_of_settled r _ _ h]
      · by_cases hs : String.mk st.buffer = ""
        · simp [hb, hs, finishStep_settled, settleOnce_of_settled r _ _ h]
        · simp [hb, hs, finishStep_settled, settleOnce_of_settled r _ _ h]
    | abortSig => simp [settleOnce_of_settled r _ _ h]

theorem foldl_execStep_settled_mono (maxIt : Nat) (st : ExecState)
    (evs : List ChildEvent) (r : Except JsError ListResult)
    (h : st.settled = some r) :
    (evs.foldl (execStep maxIt) st).settled = some r := by
  induction evs generalizing st with
  | nil => exact h
  | cons ev evs ih =>
    rw [List.foldl_cons]
    exact ih _ (execStep_settled_mono maxIt st ev r h)

/-- The executor invariant tying settlement, cleanup and the cache write
performed by `finish`: a rejected executor has detached its listeners, and
a cache write implies the promise resolved successfully. -/
def execInv (st : ExecState) : Prop :=
  (∀ e, st.settled = some (Except.error e) → st.cleaned = true) ∧
  (∀ v, st.cacheWrite = some v → ∃ u, st.settled = some (Except.ok u))

theorem execStep_preserves_inv (maxIt : Nat) (st : ExecState) (ev : ChildEvent)
    (h : execInv st) : execInv (execStep maxIt st ev) := by
  obtain ⟨h1, h2⟩ := h
  unfold execStep
  by_cases hc : st.cleaned = true
  · simpa [hc] using ⟨h1, h2⟩
  · have hnotErr : ∀ e, st.settled ≠ some (Except.error e) := by
      intro e he
      rw [h1 e he] at hc
      exact hc rfl
    simp only [hc, Bool.false_eq_true, if_false]
    cases ev with
    | data chunk =>
      rcases hp : procAux maxIt (st.buffer ++ chunk) [] st.files with _ | f
      · simp only [hp]
        exact ⟨fun e he => absurd he (hnotErr e), fun v hv => h2 v hv⟩
      · simp only [hp]
        constructor
        · intro e he
          rfl
        · intro v _
          exact settleOnce_ok_exists st.settled _ hnotErr
    | stderrData s =>
      by_cases hf : strIncludes s "fatal" = true
      · simp only [hf, if_true]
        exact ⟨fun e _ => rfl, fun v hv => by
          obtain ⟨u, hu⟩ := h2 v hv
          exact ⟨u, settleOnce_of_settled _ _ _ hu⟩⟩
      · simp only [hf, Bool.false_eq_true, if_false]
        exact ⟨h1, h2⟩
    | errorEvt e =>
      exact ⟨fun e0 _ => rfl, fun v hv => by
        obtain ⟨u, hu⟩ := h2 v hv
        exact ⟨u, settleOnce_of_settled _ _ _ hu⟩⟩
    | close code =>
      have hbase : ∀ st2 : ExecState, st2.settled = st.settled →
          execInv (finishStep st2) := by
        intro st2 hs2
        constructor
        · intro e he
          rw [finishStep_settled, hs2] at he
          rcases settleOnce_error_elim _ _ _ he with h' | ⟨_, h'⟩
          · exact absurd h' (hnotErr e)
          · exact absurd h' (by simp)
        · intro v _
          rw [finishStep_settled, hs2]
          exact settleOnce_ok_exists st.settled _ hnotErr
      apply hbase
      by_cases hb : st.buffer.isEmpty = true
      · rw [if_pos hb]
      · rw [if_neg hb]
        by_cases hs2 : String.mk st.buffer = ""
        · rw [if_pos hs2]
        · rw [if_neg hs2]
    | abortSig =>
      exact ⟨fun e0 _ => rfl, fun v hv => by
        obtain ⟨u, hu⟩ := h2 v hv
        exact ⟨u, settleOnce_of_settled _ _ _ hu⟩⟩

theorem runExec_inv (maxIt : Nat) (pre : Bool) (evs : List ChildEvent) :
    execInv (runExec maxIt pre evs) := by
  unfold runExec
  have hinit : execInv (initExec pre) := by
    cases pre <;> simp [initExec, execInv]
  generalize initExec pre = st at hinit
  induction evs generalizing st with
  | nil => exact hinit
  | cons ev evs ih =>
    rw [List.foldl_cons]
    exact ih _ (execStep_preserves_inv maxIt st ev hinit)

/-- A scan that rejects never performed the cache write of `finish`. -/
theorem runExec_error_no_write (maxIt : Nat) (pre : Bool)
    (evs : List ChildEvent) (e : JsError)
    (h : (runExec maxIt pre evs).settled = some (Except.error e)) :
    (runExec maxIt pre evs).cacheWrite = none := by
  obtain ⟨_, h2⟩ := runExec_inv maxIt pre evs
  rcases hw : (runExec maxIt pre evs).cacheWrite with _ | v
  · rfl
  · obtain ⟨u, hu⟩ := h2 v hw
    rw [h] at hu
    simp at hu

/-- Segments of `data` when a partial piece `acc` has already been
accumulated: the first NUL-terminated segment of `data` is extended by
`acc` on the left; with no delimiter in `data`, everything joins the
unterminated tail. -/
def withAccSegs (acc data : List Char) : List (List Char) × List Char :=
  match nulSplit data with
  | ([], t) => ([], acc ++ t)
  | (s :: ss, t) => ((acc ++ s) :: ss, t)

/-- The non-empty segments of a `withAccSegs` decomposition, as strings. -/
def wSegStrings (acc data : List Char) : List String :=
  ((withAccSegs acc data).1.filter (fun p => ¬ p.isEmpty)).map (fun p => String.mk p)

theorem nulSplit_cons_nul (d : List Char) :
    nulSplit (nulChar :: d) = ([] :: (nulSplit d).1, (nulSplit d).2) := by
  simp [nulSplit]

theorem nulSplit_cons_ne (c : Char) (d : List Char) (hc : ¬ c = nulChar) :
    nulSplit (c :: d)
      = (match nulSplit d with
         | (s :: ss, t) => ((c :: s) :: ss, t)
         | ([], t) => ([], c :: t)) := by
  simp [nulSplit, hc]

theorem withAccSegs_nil_acc (d : List Char) : withAccSegs [] d = nulSplit d := by
  unfold withAccSegs
  rcases h : nulSplit d with ⟨_ | ⟨s, ss⟩, t⟩ <;> simp

theorem withAccSegs_shift (acc : List Char) (c : Char) (d : List Char)
    (hc : ¬ c = nulChar) :
    withAccSegs acc (c :: d) = withAccSegs (acc ++ [c]) d := by
  unfold withAccSegs
  rw [nulSplit_cons_ne c d hc]
  rcases h : nulSplit d with ⟨_ | ⟨s, ss⟩, t⟩ <;> simp [h]

theorem withAccSegs_nul (acc : List Char) (d : List Char) :
    withAccSegs acc (nulChar :: d)
      = (acc :: (nulSplit d).1, (nulSplit d).2) := by
  unfold withAccSegs
  rw [nulSplit_cons_nul d]
  rcases h : nulSplit d with ⟨_ | ⟨s, ss⟩, t⟩ <;> simp [h]

theorem wSegStrings_nil_acc (d : List Char) :
    wSegStrings [] d = segStrings d := by
  unfold wSegStrings segStrings
  rw [withAccSegs_nil_acc]

/-- Characterization of the `onData` scanning loop: starting below the cap,
it either reaches the cap after exactly the first `maxIt - files.length`
non-empty segments and finishes truncated, or consumes every terminated
segment and retains the unterminated tail. -/
theorem procAux_spec (maxIt : Nat) :
    ∀ (data acc : List Char) (files : List String), files.length < maxIt →
    procAux maxIt data acc files =
      (if maxIt ≤ files.length + (wSegStrings acc data).length
       then DataStep.done (files ++ (wSegStrings acc data).take (maxIt - files.length))
       else DataStep.cont (withAccSegs acc data).2 (files ++ wSegStrings acc data)) := by
  intro data
  induction data with
  | nil =>
    intro acc files hlt
    have hs : wSegStrings acc [] = [] := by
      unfold wSegStrings withAccSegs nulSplit
      simp
    have ht : (withAccSegs acc []).2 = acc := by
      unfold withAccSegs nulSplit
      simp
    rw [hs, ht]
    simp only [List.length_nil, Nat.add_zero, List.take_nil, List.append_nil]
    rw [if_neg (by omega)]
    rfl
  | cons c cs ih =>
    intro acc files hlt
    by_cases hc : c = nulChar
    · subst hc
      have hsegs : wSegStrings acc (nulChar :: cs)
          = (if acc.isEmpty then [] else [String.mk acc]) ++ segStrings cs := by
        unfold wSegStrings segStrings
        rw [withAccSegs_nul]
        rcases acc with _ | ⟨a, as⟩ <;> simp [List.filter_cons]
      have htail : (withAccSegs acc (nulChar :: cs)).2 = (nulSplit cs).2 := by
        rw [withAccSegs_nul]
      have hstep : procAux maxIt (nulChar :: cs) acc files =
          (let files' := if acc.isEmpty then files else files ++ [String.mk acc]
           if maxIt ≤ files'.length then DataStep.done files'
           else procAux maxIt cs [] files') := by
        simp [procAux]
      rw [hstep, hsegs, htail]
      by_cases hacc : acc.isEmpty
      · simp only [hacc, if_true, List.nil_append]
        rw [if_neg (by omega)]
        rw [ih [] files hlt, wSegStrings_nil_acc, withAccSegs_nil_acc]
      · simp only [hacc, Bool.false_eq_true, if_false]
        by_cases hcap : maxIt ≤ (files ++ [String.mk acc]).length
        · have hlen : (files ++ [String.mk acc]).length = files.length + 1 := by simp
          rw [if_pos hcap, if_pos (by simp [hlen] at hcap ⊢; omega)]
          have hone : maxIt - files.length = 1 := by
            rw [hlen] at hcap
            omega
          rw [hone]
          simp
        · have hlen : (files ++ [String.mk acc]).length = files.length + 1 := by simp
          rw [if_neg hcap]
          rw [ih [] (files ++ [String.mk acc]) (by omega), wSegStrings_nil_acc,
              withAccSegs_nil_acc]
          have harith : files.length + (1 + (segStrings cs).length)
              = (files ++ [String.mk acc]).length + (segStrings cs).length := by
            simp
            omega
          by_cases hcap2 : maxIt ≤ (files ++ [String.mk acc]).length + (segStrings cs).length
          · rw [if_pos hcap2, if_pos (by simp at hcap2 ⊢; omega)]
            have htake : (String.mk acc :: segStrings cs).take (maxIt - files.length)
                = String.mk acc ::
                    (segStrings cs).take (maxIt - (files ++ [String.mk acc]).length) := by
              have h1 : maxIt - files.length
                  = (maxIt - (files ++ [String.mk acc]).length) + 1 := by
                rw [hlen]
                rw [hlen] at hcap
                omega
              rw [h1]
              simp [List.take_succ_cons]
            rw [List.singleton_append, htake]
            simp
          · rw [if_neg hcap2, if_neg (by simp at hcap2 ⊢; omega)]
            simp
    · have hshift : procAux maxIt (c :: cs) acc files
          = procAux maxIt cs (acc ++ [c]) files := by
        simp [procAux, hc]
      have hsegs : wSegStrings acc (c :: cs) = wSegStrings (acc ++ [c]) cs := by
        unfold wSegStrings
        rw [withAccSegs_shift acc c cs hc]
      have htail : (withAccSegs acc (c :: cs)).2 = (withAccSegs (acc ++ [c]) cs).2 := by
        rw [withAccSegs_shift acc c cs hc]
      rw [hshift, hsegs, htail]
      exact ih (acc ++ [c]) files hlt

/-- A character list without the delimiter. -/
def nulFree (l : List Char) : Prop := ∀ c ∈ l, ¬ c = nulChar

theorem procAux_cons_nul (maxIt : Nat) (xs acc : List Char) (files : List String) :
    procAux maxIt (nulChar :: xs) acc files
      = (if maxIt ≤ (if acc.isEmpty then files else files ++ [String.mk acc]).length
         then DataStep.done (if acc.isEmpty then files else files ++ [String.mk acc])
         else procAux maxIt xs []
                (if acc.isEmpty then files else files ++ [String.mk acc])) := by
  simp [procAux]

theorem procAux_cons_ne (maxIt : Nat) (x : Char) (xs acc : List Char)
    (files : List String) (hx : ¬ x = nulChar) :
    procAux maxIt (x :: xs) acc files = procAux maxIt xs (acc ++ [x]) files := by
  simp [procAux, hx]

/-- Feeding more data after a non-truncating run continues from the retained
buffer and files; after a truncating run, further data is irrelevant. -/
theorem procAux_comp (maxIt : Nat) :
    ∀ (d acc : List Char) (files : List String) (c : List Char),
    (match procAux maxIt d acc files with
     | DataStep.cont b f => procAux maxIt (d ++ c) acc files = procAux maxIt c b f
     | DataStep.done f => procAux maxIt (d ++ c) acc files = DataStep.done f) := by
  intro d
  induction d with
  | nil =>
    intro acc files c
    simp [procAux]
  | cons x xs ih =>
    intro acc files c
    by_cases hx : x = nulChar
    · subst hx
      rw [procAux_cons_nul]
      rw [show (nulChar :: xs) ++ c = nulChar :: (xs ++ c) from rfl]
      rw [procAux_cons_nul]
      by_cases hcap :
          maxIt ≤ (if acc.isEmpty then files else files ++ [String.mk acc]).length
      · rw [if_pos hcap, if_pos hcap]
      · rw [if_neg hcap, if_neg hcap]
        exact ih [] _ c
    · rw [procAux_cons_ne maxIt x xs acc files hx]
      rw [show (x :: xs) ++ c = x :: (xs ++ c) from rfl]
      rw [procAux_cons_ne maxIt x (xs ++ c) acc files hx]
      exact ih (acc ++ [x]) files c

/-- The retained buffer of a non-truncating run contains no delimiter. -/
theorem procAux_cont_nulFree (maxIt : Nat) :
    ∀ (d acc : List Char) (files : List String) (b : List Char) (f : List String),
    procAux maxIt d acc files = DataStep.cont b f → nulFree acc → nulFree b := by
  intro d
  induction d with
  | nil =>
    intro acc files b f h ha
    simp only [procAux, DataStep.cont.injEq] at h
    rw [← h.1]
    exact ha
  | cons x xs ih =>
    intro acc files b f h ha
    by_cases hx : x = nulChar
    · subst hx
      rw [procAux_cons_nul] at h
      by_cases hcap :
          maxIt ≤ (if acc.isEmpty then files else files ++ [String.mk acc]).length
      · rw [if_pos hcap] at h
        simp at h
      · rw [if_neg hcap] at h
        exact ih [] _ b f h (by intro c hc; simp at hc)
    · rw [procAux_cons_ne maxIt x xs acc files hx] at h
      refine ih (acc ++ [x]) files b f h ?_
      intro c hc
      rcases List.mem_append.mp hc with h' | h'
      · exact ha c h'
      · simp at h'
        rw [h']
        exact hx

/-- Scanning a delimiter-free prefix just accumulates it. -/
theorem procAux_shiftOut (maxIt : Nat) :
    ∀ (b acc : List Char) (files : List String) (c : List Char), nulFree b →
    procAux maxIt (b ++ c) acc files = procAux maxIt c (acc ++ b) files := by
  intro b
  induction b with
  | nil =>
    intro acc files c _
    simp
  | cons x xs ih =>
    intro acc files c hb
    have hx : ¬ x = nulChar := hb x (by simp)
    rw [show (x :: xs) ++ c = x :: (xs ++ c) from rfl]
    rw [procAux_cons_ne maxIt x (xs ++ c) acc files hx]
    have := ih (acc ++ [x]) files c (fun d hd => hb d (by simp [hd]))
    rw [show (acc ++ [x]) ++ xs = acc ++ x :: xs by simp] at this
    exact this

/-- The state of a run over stdout chunks only, described by the scanning
loop applied to the concatenation of all chunks. -/
def dataPhase (maxIt : Nat) (all : List Char) (st : ExecState) : Prop :=
  match procAux maxIt all [] [] with
  | DataStep.cont b f =>
      st.buffer = b ∧ st.files = f ∧ st.truncated = false ∧ st.cleaned = false ∧
      st.settled = none ∧ st.cacheWrite = none
  | DataStep.done f =>
      st.cleaned = true ∧ st.truncated = true ∧
      st.settled = some (Except.ok ⟨jsSortStable f, true⟩) ∧
      st.cacheWrite = some ⟨jsSortStable f, true⟩

theorem runData_phase (maxIt : Nat) (chunks : List (List Char)) :
    dataPhase maxIt chunks.join
      ((chunks.map ChildEvent.data).foldl (execStep maxIt) (initExec false)) := by
  induction chunks using List.reverseRecOn with
  | nil =>
    simp only [List.join, List.map_nil, List.foldl_nil]
    unfold dataPhase
    simp [procAux, initExec]
  | append_singleton cs c ih =>
    rw [List.map_append, List.foldl_append]
    simp only [List.map_cons, List.map_nil, List.foldl_cons, List.foldl_nil]
    set st := (cs.map ChildEvent.data).foldl (execStep maxIt) (initExec false) with hst
    unfold dataPhase at ih
    rcases hp : procAux maxIt cs.join [] [] with ⟨b, f⟩ | f
    · rw [hp] at ih
      obtain ⟨hb, hf, htr, hcl, hse, hcw⟩ := ih
      have hbNF : nulFree b :=
        procAux_cont_nulFree maxIt cs.join [] [] b f hp (by intro x hx; simp at hx)
      have hcomp := procAux_comp maxIt cs.join [] [] c
      rw [hp] at hcomp
      have hjoin : (cs ++ [c]).join = cs.join ++ c := by
        simp
      have hnext : procAux maxIt ((cs ++ [c]).join) [] [] = procAux maxIt c b f := by
        rw [hjoin, hcomp]
      unfold dataPhase
      rw [hnext]
      have hstep : execStep maxIt st (ChildEvent.data c)
          = (match procAux maxIt (st.buffer ++ c) [] st.files with
             | DataStep.cont b2 f2 =>
                 { st with consumed := st.consumed + 1, buffer := b2, files := f2 }
             | DataStep.done f2 =>
                 finishStep { st with consumed := st.consumed + 1, files := f2,
                                      truncated := true, cleaned := true,
                                      killed := true }) := by
        unfold execStep
        rw [if_neg (by rw [hcl]; simp)]
      have hscan : procAux maxIt (st.buffer ++ c) [] st.files = procAux maxIt c b f := by
        rw [hb, hf]
        rw [procAux_shiftOut maxIt b [] f c hbNF]
        simp
      rw [hstep, hscan]
      rcases hq : procAux maxIt c b f with ⟨b2, f2⟩ | f2
      · exact ⟨rfl, rfl, htr, hcl, hse, hcw⟩
      · constructor
        · rfl
        · constructor
          · rfl
          · constructor
            · rw [finishStep_settled]
              simp only [hse]
              rfl
            · rfl
    · rw [hp] at ih
      obtain ⟨hcl, htr, hse, hcw⟩ := ih
      have hcomp := procAux_comp maxIt cs.join [] [] c
      rw [hp] at hcomp
      have hjoin : (cs ++ [c]).join = cs.join ++ c := by
        simp
      unfold dataPhase
      rw [hjoin, hcomp]
      rw [execStep_cleaned_frozen maxIt st (ChildEvent.data c) hcl]
      exact ⟨hcl, htr, hse, hcw⟩

theorem string_mk_eq_empty_iff (l : List Char) : String.mk l = "" ↔ l = [] := by
  constructor
  · intro h
    have := congrArg String.data h
    simpa using this
  · intro h
    rw [h]

/-- Full characterization of a scan over arbitrarily chunked stdout followed
by process close: with at least `maxIt` non-empty terminated segments the
result is the sorted first `maxIt` of them marked truncated; otherwise all
segments including the flushed tail, not truncated. -/
theorem scanStream_spec (maxIt : Nat) (hpos : 0 < maxIt)
    (chunks : List (List Char)) (code : Int) :
    scanStream maxIt chunks code
      = (if maxIt ≤ (segStrings chunks.join).length
         then some (Except.ok ⟨jsSortStable ((segStrings chunks.join).take maxIt), true⟩)
         else some (Except.ok
             ⟨jsSortStable (segStrings chunks.join ++ tailSeg chunks.join), false⟩)) := by
  have hphase := runData_phase maxIt chunks
  have hproc := procAux_spec maxIt chunks.join [] [] (by simpa using hpos)
  rw [wSegStrings_nil_acc, withAccSegs_nil_acc] at hproc
  simp only [List.length_nil, Nat.zero_add, Nat.sub_zero, List.nil_append] at hproc
  unfold scanStream scanOutcome runExec
  rw [List.foldl_append]
  set st := (chunks.map ChildEvent.data).foldl (execStep maxIt) (initExec false) with hst
  unfold dataPhase at hphase
  rw [hproc] at hphase
  by_cases hcap : maxIt ≤ (segStrings chunks.join).length
  · rw [if_pos hcap] at hphase ⊢
    obtain ⟨hcl, _, hse, _⟩ := hphase
    rw [List.foldl_cons, List.foldl_nil, execStep_cleaned_frozen maxIt st _ hcl, hse]
  · rw [if_neg hcap] at hphase ⊢
    obtain ⟨hb, hf, htr, hcl, hse, _⟩ := hphase
    rw [List.foldl_cons, List.foldl_nil]
    have hstep : execStep maxIt st (ChildEvent.close code)
        = finishStep
            (if st.buffer.isEmpty then st
             else if String.mk st.buffer = "" then st
             else { st with files := st.files ++ [String.mk st.buffer] }) := by
      unfold execStep
      rw [if_neg (by rw [hcl]; simp)]
    rw [hstep]
    by_cases htl : (nulSplit chunks.join).2 = []
    · have hbe : st.buffer.isEmpty = true := by
        rw [hb, htl]
        rfl
      rw [if_pos hbe, finishStep_settled, hse, hf, htr]
      unfold tailSeg
      rw [if_pos (by rw [htl]; rfl)]
      simp [settleOnce]
    · have hbe : ¬ st.buffer.isEmpty = true := by
        rw [hb]
        simpa [List.isEmpty_iff] using htl
      have hms : ¬ String.mk st.buffer = "" := by
        rw [hb]
        rw [string_mk_eq_empty_iff]
        exact htl
      rw [if_neg hbe, if_neg hms, finishStep_settled]
      simp only [hse, hf, htr, hb]
      unfold tailSeg
      rw [if_neg (by simpa [List.isEmpty_iff] using htl)]
      simp [settleOnce]

theorem cacheGet_set_self (c : Cache) (k : String) (e : CacheEntry) :
    cacheGet (cacheSet c k e) k = some e := by
  simp [cacheGet, cacheSet]

theorem cacheGet_delete_ne (c : Cache) (w k : String) (h : ¬ k = w) :
    cacheGet (cacheDelete c w) k = cacheGet c k := by
  induction c with
  | nil => rfl
  | cons p rest ih =>
    obtain ⟨k', e⟩ := p
    by_cases hk : k' = w
    · have hne : ¬ k' = k := by
        rw [hk]
        intro hkw
        exact h hkw.symm
      simp only [cacheDelete, List.filter_cons]
      rw [if_neg (by simp [hk])]
      simp only [cacheGet, if_neg hne]
      exact ih
    · simp only [cacheDelete, List.filter_cons]
      rw [if_pos (by simp [hk])]
      simp only [cacheGet]
      by_cases hkk : k' = k
      · simp [hkk]
      · rw [if_neg hkk, if_neg hkk]
        exact ih

/-- The key built by `listIgnoredFiles` is never the bare root string. -/
theorem mkKey_ne_cwd (cwd : String) (n : Nat) : ¬ mkKey cwd n = cwd := by
  intro h
  have hlen := congrArg String.length h
  unfold mkKey at hlen
  rw [String.length_append, String.length_append] at hlen
  have h2 : ("::" : String).length = 2 := rfl
  omega

/-- The state after completing a successful scan holds exactly the resolved
value with expiry TTL past the finish time and no in-flight marker. -/
theorem completeScan_some_get (s : SysState) (key : String) (t : Nat)
    (v : ListResult) :
    cacheGet (completeScan s key t (some v)).cache key
      = some ⟨some v, t + ttlMs, none⟩ := by
  unfold completeScan
  simp only
  rw [cacheGet_set_self]
  simp only
  rw [cacheGet_set_self]

/-- Completing a failed scan (no cache write) only clears the in-flight
marker of the registered entry. -/
theorem completeScan_none_get (s : SysState) (key : String) (t : Nat)
    (e : CacheEntry) (h : cacheGet s.cache key = some e) :
    cacheGet (completeScan s key t none).cache key
      = some { e with inflight := none } := by
  unfold completeScan
  simp only [h]
  rw [cacheGet_set_self]

/-- A pre-aborted signal rejects the scan with the cancellation error before
any listener is attached: the child is killed and no output is consumed. -/
theorem preAborted_outcome (maxIt : Nat) (evs : List ChildEvent) :
    scanOutcome maxIt true evs = some (Except.error cancelledErr) ∧
    (runExec maxIt true evs).killed = true ∧
    (runExec maxIt true evs).consumed = 0 := by
  have hfr : runExec maxIt true evs = initExec true := by
    unfold runExec
    exact foldl_execStep_cleaned_frozen maxIt _ evs rfl
  have hcm : catchMap cancelledErr = cancelledErr := by decide
  have hs : (runExec maxIt true evs).settled = some (Except.error cancelledErr) := by
    rw [hfr]
    rfl
  refine ⟨?_, ?_, ?_⟩
  · unfold scanOutcome
    simp only [hs]
    rw [hcm]
  · rw [hfr]
    rfl
  · rw [hfr]
    rfl

theorem jsSortStable_length (l : List String) :
    (jsSortStable l).length = l.length :=
  (jsSortStable_perm l).length_eq

theorem tailSeg_length_le (all : List Char) : (tailSeg all).length ≤ 1 := by
  unfold tailSeg
  split <;> simp

/-- C1 (amended): for every positive `maxItems` and every chunking of the
stdout stream, the scan resolves; `files.length <= maxItems` always holds;
`truncated` is true iff the stream carries at least `maxItems` non-empty
NUL-terminated entries (so also at exactly `maxItems`), in which case the
result is the sorted first `maxItems` entries; with strictly fewer entries
all of them (including a trailing unterminated one) are present and
`truncated` is false. -/
theorem scan_cap_spec (maxIt : Nat) (hpos : 0 < maxIt)
    (chunks : List (List Char)) (code : Int) :
    ∃ v : ListResult,
      scanStream maxIt chunks code = some (Except.ok v) ∧
      v.files.length ≤ maxIt ∧
      (v.truncated = true ↔ maxIt ≤ (segStrings chunks.join).length) ∧
      (maxIt ≤ (segStrings chunks.join).length →
        v.files = jsSortStable ((segStrings chunks.join).take maxIt) ∧
        v.files.length = maxIt) ∧
      ((segStrings chunks.join).length < maxIt →
        v.files = jsSortStable (segStrings chunks.join ++ tailSeg chunks.join) ∧
        v.truncated = false) := by
  rw [scanStream_spec maxIt hpos chunks code]
  by_cases hcap : maxIt ≤ (segStrings chunks.join).length
  · rw [if_pos hcap]
    refine ⟨⟨jsSortStable ((segStrings chunks.join).take maxIt), true⟩, rfl, ?_, ?_, ?_, ?_⟩
    · rw [jsSortStable_length, List.length_take]
      omega
    · simpa using hcap
    · intro _
      refine ⟨rfl, ?_⟩
      rw [jsSortStable_length, List.length_take]
      omega
    · intro hlt
      omega
  · rw [if_neg hcap]
    refine ⟨⟨jsSortStable (segStrings chunks.join ++ tailSeg chunks.join), false⟩,
        rfl, ?_, ?_, ?_, ?_⟩
    · rw [jsSortStable_length, List.length_append]
      have := tailSeg_length_le chunks.join
      omega
    · simp only [Bool.false_eq_true, false_iff]
      omega
    · intro hcap2
      omega
    · intro _
      exact ⟨rfl, rfl⟩

/-- C1 witness: a stream with one terminated entry and cap three. -/
theorem scan_cap_spec_witness :
    0 < 3 ∧
    (∃ v : ListResult,
      scanStream 3 [['a', nulChar]] 0 = some (Except.ok v) ∧
      v.files.length ≤ 3 ∧
      (v.truncated = true ↔ 3 ≤ (segStrings [['a', nulChar]].join).length) ∧
      (3 ≤ (segStrings [['a', nulChar]].join).length →
        v.files = jsSortStable ((segStrings [['a', nulChar]].join).take 3) ∧
        v.files.length = 3) ∧
      ((segStrings [['a', nulChar]].join).length < 3 →
        v.files = jsSortStable
            (segStrings [['a', nulChar]].join ++ tailSeg [['a', nulChar]].join) ∧
        v.truncated = false)) :=
  ⟨by decide, scan_cap_spec 3 (by decide) [['a', nulChar]] 0⟩

/-- C1 counterexample: the stream carries exactly `maxItems` (= 2)
NUL-terminated entries — not strictly more — yet the scan reports
`truncated = true`, refuting the claimed boundary behaviour. -/
theorem scan_cap_boundary_counterexample :
    scanStream 2 [['a', nulChar, 'b', nulChar]] 0
      = some (Except.ok ⟨["a", "b"], true⟩) ∧
    (segStrings [['a', nulChar, 'b', nulChar]].join).length = 2 := by
  constructor
  · decide
  · decide

/-- C2: once a scan for (root, maxItems) has completed and stored its result,
a second call within the TTL window returns exactly the stored `ListResult`
(the very object the first call resolved with) and leaves the whole
coordinator state — including the spawn counter — unchanged: the external
process is not invoked again. -/
theorem cache_hit_returns_stored (s : SysState) (cwd : String) (n : Nat)
    (v : ListResult) (t now : Nat) (ab : Bool) (h : now < t + ttlMs) :
    listIgnoredFilesCall (completeScan s (mkKey cwd n) t (some v)) cwd n now ab
      = (CallOutcome.value v, completeScan s (mkKey cwd n) t (some v)) := by
  simp only [listIgnoredFilesCall, completeScan_some_get, hitValue]
  simp [h]

/-- C2 witness. -/
theorem cache_hit_returns_stored_witness :
    (0 : Nat) < 0 + ttlMs ∧
    listIgnoredFilesCall (completeScan ⟨[], 0, 0⟩ (mkKey "r" 5) 0 (some ⟨["x"], false⟩))
        "r" 5 0 true
      = (CallOutcome.value ⟨["x"], false⟩,
         completeScan ⟨[], 0, 0⟩ (mkKey "r" 5) 0 (some ⟨["x"], false⟩)) :=
  ⟨by decide, cache_hit_returns_stored ⟨[], 0, 0⟩ "r" 5 ⟨["x"], false⟩ 0 0 true (by decide)⟩

/-- C3: a first call on a fresh key starts the scan and registers it
in-flight; any further call with the same key while the scan is in-flight
returns that exact pending operation (same identifier, hence the same
eventual result or failure for every such caller) and leaves the state —
including the spawn counter — unchanged, so no second process is spawned. -/
theorem inflight_coalesced (s : SysState) (cwd : String) (n now now' : Nat)
    (ab ab' : Bool) (h : cacheGet s.cache (mkKey cwd n) = none) :
    (listIgnoredFilesCall s cwd n now ab).1 = CallOutcome.started s.nextOp ∧
    listIgnoredFilesCall (listIgnoredFilesCall s cwd n now ab).2 cwd n now' ab'
      = (CallOutcome.pending s.nextOp, (listIgnoredFilesCall s cwd n now ab).2) := by
  have h1 : listIgnoredFilesCall s cwd n now ab
      = (CallOutcome.started s.nextOp,
         { cache := cacheSet s.cache (mkKey cwd n) ⟨none, now + ttlMs, some s.nextOp⟩,
           nextOp := s.nextOp + 1, spawnCount := s.spawnCount + 1 }) := by
    simp only [listIgnoredFilesCall, h, startNewScan]
  rw [h1]
  constructor
  · rfl
  · simp only [listIgnoredFilesCall, cacheGet_set_self, hitValue]

/-- C3 witness. -/
theorem inflight_coalesced_witness :
    cacheGet (SysState.cache ⟨[], 0, 0⟩) (mkKey "r" 5) = none ∧
    ((listIgnoredFilesCall ⟨[], 0, 0⟩ "r" 5 1 false).1
        = CallOutcome.started (SysState.nextOp ⟨[], 0, 0⟩) ∧
      listIgnoredFilesCall (listIgnoredFilesCall ⟨[], 0, 0⟩ "r" 5 1 false).2 "r" 5 2 true
        = (CallOutcome.pending (SysState.nextOp ⟨[], 0, 0⟩),
           (listIgnoredFilesCall ⟨[], 0, 0⟩ "r" 5 1 false).2)) :=
  ⟨by decide, inflight_coalesced ⟨[], 0, 0⟩ "r" 5 1 2 false true (by decide)⟩

/-- C4 (code bug): in the engine variant whose cache keys join the root with
the item cap, `clearIgnoredListCache(root)` deletes only the key equal to
the bare root string, which no scan ever creates; so no entry of that root
is removed, and a later call within the TTL still returns the cached value
without spawning. Clearing without an argument does empty the cache. -/
theorem invalidate_root_misses_keys :
    (∀ (c : Cache) (cwd : String) (n : Nat),
      cacheGet (clearIgnoredListCacheScoped c (some cwd)) (mkKey cwd n)
        = cacheGet c (mkKey cwd n)) ∧
    clearIgnoredListCacheScoped
        [(mkKey "r" 10, ⟨some ⟨["x"], false⟩, 100, none⟩)] (some "r")
      = [(mkKey "r" 10, ⟨some ⟨["x"], false⟩, 100, none⟩)] ∧
    listIgnoredFilesCall
        ⟨clearIgnoredListCacheScoped
            [(mkKey "r" 10, ⟨some ⟨["x"], false⟩, 100, none⟩)] (some "r"), 0, 0⟩
        "r" 10 5 false
      = (CallOutcome.value ⟨["x"], false⟩,
         ⟨[(mkKey "r" 10, ⟨some ⟨["x"], false⟩, 100, none⟩)], 0, 0⟩) ∧
    clearIgnoredListCacheScoped
        [(mkKey "r" 10, ⟨some ⟨["x"], false⟩, 100, none⟩)] none = [] := by
  refine ⟨?_, by decide, by decide, by decide⟩
  intro c cwd n
  unfold clearIgnoredListCacheScoped
  exact cacheGet_delete_ne c cwd _ (mkKey_ne_cwd cwd n)

/-- C5 (amended): the parser performs no deduplication — each path string
occurs in the output exactly as many times as the corresponding non-empty
segment occurs in the NUL-delimited input. -/
theorem parse_preserves_multiplicity (s x : String) :
    (parseGitZOutput s).count x
      = ((jsSplitNul s).filter (fun p => p != "")).count x :=
  (jsSortStable_perm _).count_eq x

/-- C5 counterexample: an input repeating the same segment yields that path
twice in the output, refuting the claimed deduplication. -/
theorem parse_duplicate_counterexample :
    parseGitZOutput (String.mk ['a', nulChar, 'a']) = ["a", "a"] ∧
    (parseGitZOutput (String.mk ['a', nulChar, 'a'])).count "a" = 2 := by
  constructor
  · decide
  · decide

/-- C6 (amended): the parsed list is sorted under the case-insensitive
collator order and is a permutation of the non-empty segments, with ties
between case-insensitively-equal strings broken by input order (stable
sort), not by byte order; on the spec example the lower-cased output is
`["a","a","b","b"]`. -/
theorem sort_stable_case_insensitive (s : String) :
    List.Sorted colLe (parseGitZOutput s) ∧
    List.Perm (parseGitZOutput s) ((jsSplitNul s).filter (fun p => p != "")) ∧
    (∀ t : String,
      (parseGitZOutput s).filter (fun y => decide (collCmp y t = Ordering.eq))
        = ((jsSplitNul s).filter (fun p => p != "")).filter
            (fun y => decide (collCmp y t = Ordering.eq))) ∧
    (parseGitZOutput (String.mk ['B', nulChar, 'a', nulChar, 'A', nulChar, 'b'])).map
        (fun x => String.mk (x.data.map Char.toLower))
      = ["a", "a", "b", "b"] :=
  ⟨jsSortStable_sorted _, jsSortStable_perm _,
   fun t => jsSortStable_filter_eqClass _ t, by decide⟩

/-- C6 counterexample: on the spec's own example input the output places
"a" before "A" (input order), while byte order would place "A" (0x41)
before "a" (0x61); so ties are not broken by natural byte order. -/
theorem sort_tie_order_counterexample :
    parseGitZOutput (String.mk ['B', nulChar, 'a', nulChar, 'A', nulChar, 'b'])
      = ["a", "A", "B", "b"] ∧
    ¬ ("A" : String) = "a" := by
  constructor
  · decide
  · decide

/-- C7: a scan that fails — spawn error, fatal tool error or cancellation —
performs no cache write, and completing it leaves the key with no value and
a cleared in-flight marker; the next call for the same key therefore takes
the fresh-scan path, spawning the external process again. -/
theorem failure_not_cached (maxIt : Nat) (pre : Bool) (evs : List ChildEvent)
    (err : JsError) (s : SysState) (cwd : String) (n exp op t now' : Nat)
    (ab : Bool)
    (hrun : (runExec maxIt pre evs).settled = some (Except.error err))
    (hent : cacheGet s.cache (mkKey cwd n) = some ⟨none, exp, some op⟩) :
    (runExec maxIt pre evs).cacheWrite = none ∧
    cacheGet (completeScan s (mkKey cwd n) t (runExec maxIt pre evs).cacheWrite).cache
        (mkKey cwd n) = some ⟨none, exp, none⟩ ∧
    (listIgnoredFilesCall
        (completeScan s (mkKey cwd n) t (runExec maxIt pre evs).cacheWrite)
        cwd n now' ab).1
      = CallOutcome.started
          (completeScan s (mkKey cwd n) t (runExec maxIt pre evs).cacheWrite).nextOp ∧
    (listIgnoredFilesCall
        (completeScan s (mkKey cwd n) t (runExec maxIt pre evs).cacheWrite)
        cwd n now' ab).2.spawnCount
      = (completeScan s (mkKey cwd n) t
          (runExec maxIt pre evs).cacheWrite).spawnCount + 1 := by
  have hw : (runExec maxIt pre evs).cacheWrite = none :=
    runExec_error_no_write maxIt pre evs err hrun
  rw [hw]
  have hg : cacheGet (completeScan s (mkKey cwd n) t none).cache (mkKey cwd n)
      = some ⟨none, exp, none⟩ := by
    have := completeScan_none_get s (mkKey cwd n) t ⟨none, exp, some op⟩ hent
    simpa using this
  refine ⟨rfl, hg, ?_, ?_⟩
  · simp only [listIgnoredFilesCall, hg, hitValue, startNewScan]
  · simp only [listIgnoredFilesCall, hg, hitValue, startNewScan]

/-- C7 witness: a spawn error. -/
theorem failure_not_cached_witness :
    ((runExec 1 false [ChildEvent.errorEvt ⟨"spawn git ENOENT", ""⟩]).settled
        = some (Except.error ⟨"spawn git ENOENT", ""⟩) ∧
      cacheGet (SysState.cache ⟨[(mkKey "r" 1, ⟨none, 42, some 0⟩)], 1, 1⟩) (mkKey "r" 1)
        = some ⟨none, 42, some 0⟩) ∧
    ((runExec 1 false [ChildEvent.errorEvt ⟨"spawn git ENOENT", ""⟩]).cacheWrite = none ∧
      cacheGet (completeScan ⟨[(mkKey "r" 1, ⟨none, 42, some 0⟩)], 1, 1⟩ (mkKey "r" 1) 7
          (runExec 1 false [ChildEvent.errorEvt ⟨"spawn git ENOENT", ""⟩]).cacheWrite).cache
          (mkKey "r" 1) = some ⟨none, 42, none⟩ ∧
      (listIgnoredFilesCall
          (completeScan ⟨[(mkKey "r" 1, ⟨none, 42, some 0⟩)], 1, 1⟩ (mkKey "r" 1) 7
            (runExec 1 false [ChildEvent.errorEvt ⟨"spawn git ENOENT", ""⟩]).cacheWrite)
          "r" 1 9 false).1
        = CallOutcome.started
            (completeScan ⟨[(mkKey "r" 1, ⟨none, 42, some 0⟩)], 1, 1⟩ (mkKey "r" 1) 7
              (runExec 1 false [ChildEvent.errorEvt ⟨"spawn git ENOENT", ""⟩]).cacheWrite).nextOp ∧
      (listIgnoredFilesCall
          (completeScan ⟨[(mkKey "r" 1, ⟨none, 42, some 0⟩)], 1, 1⟩ (mkKey "r" 1) 7
            (runExec 1 false [ChildEvent.errorEvt ⟨"spawn git ENOENT", ""⟩]).cacheWrite)
          "r" 1 9 false).2.spawnCount
        = (completeScan ⟨[(mkKey "r" 1, ⟨none, 42, some 0⟩)], 1, 1⟩ (mkKey "r" 1) 7
            (runExec 1 false [ChildEvent.errorEvt ⟨"spawn git ENOENT", ""⟩]).cacheWrite).spawnCount
            + 1) :=
  ⟨⟨by decide, by decide⟩,
   failure_not_cached 1 false [ChildEvent.errorEvt ⟨"spawn git ENOENT", ""⟩]
     ⟨"spawn git ENOENT", ""⟩ ⟨[(mkKey "r" 1, ⟨none, 42, some 0⟩)], 1, 1⟩
     "r" 1 42 0 7 9 false (by decide) (by decide)⟩

/-- C8: if the cancel signal is already set at call time, the (already
spawned) child is killed immediately, no output is consumed, and the scan
rejects with the cancellation error; if the signal fires while the scan is
still pending, the child is killed and the scan rejects with the
cancellation error. -/
theorem cancellation_kills_and_rejects (maxIt : Nat) :
    (∀ evs : List ChildEvent,
      scanOutcome maxIt true evs = some (Except.error cancelledErr) ∧
      (runExec maxIt true evs).killed = true ∧
      (runExec maxIt true evs).consumed = 0) ∧
    (∀ evs1 evs2 : List ChildEvent,
      (runExec maxIt false evs1).settled = none →
      (runExec maxIt false evs1).cleaned = false →
      scanOutcome maxIt false (evs1 ++ ChildEvent.abortSig :: evs2)
        = some (Except.error cancelledErr) ∧
      (runExec maxIt false (evs1 ++ ChildEvent.abortSig :: evs2)).killed = true) := by
  constructor
  · intro evs
    exact preAborted_outcome maxIt evs
  · intro evs1 evs2 h1 h2
    have habort : execStep maxIt (runExec maxIt false evs1) ChildEvent.abortSig
        = { runExec maxIt false evs1 with
            killed := true
            cleaned := true
            settled := some (Except.error cancelledErr) } := by
      unfold execStep
      rw [if_neg (by rw [h2]; simp)]
      rw [show settleOnce (runExec maxIt false evs1).settled (Except.error cancelledErr)
            = some (Except.error cancelledErr) by rw [h1]; rfl]
    have hfull : runExec maxIt false (evs1 ++ ChildEvent.abortSig :: evs2)
        = { runExec maxIt false evs1 with
            killed := true
            cleaned := true
            settled := some (Except.error cancelledErr) } := by
      unfold runExec
      rw [List.foldl_append, List.foldl_cons]
      rw [show (evs1.foldl (execStep maxIt) (initExec false))
            = runExec maxIt false evs1 from rfl]
      rw [habort]
      exact foldl_execStep_cleaned_frozen maxIt _ evs2 rfl
    have hcm : catchMap cancelledErr = cancelledErr := by decide
    constructor
    · unfold scanOutcome
      rw [hfull]
      simp only
      rw [hcm]
    · rw [hfull]

/-- C8 witness: one empty data chunk, then the signal fires. -/
theorem cancellation_kills_and_rejects_witness :
    ((runExec 3 false [ChildEvent.data ['a']]).settled = none ∧
      (runExec 3 false [ChildEvent.data ['a']]).cleaned = false) ∧
    (scanOutcome 3 false ([ChildEvent.data ['a']] ++ ChildEvent.abortSig :: [])
        = some (Except.error cancelledErr) ∧
      (runExec 3 false ([ChildEvent.data ['a']] ++ ChildEvent.abortSig :: [])).killed
        = true) :=
  ⟨⟨by decide, by decide⟩,
   (cancellation_kills_and_rejects 3).2 [ChildEvent.data ['a']] [] (by decide) (by decide)⟩

/-- C9 (amended): whenever a single delivered stderr chunk contains the
substring "fatal" while the scan is still pending, the operation rejects
with the repository-unavailable error, whatever events (including any
process close with any exit code) follow; this settlement is what every
caller sharing the in-flight promise observes. -/
theorem stderr_fatal_chunk_rejects (maxIt : Nat) (evs1 evs2 : List ChildEvent)
    (s : String) (hf : strIncludes s "fatal" = true)
    (h1 : (runExec maxIt false evs1).settled = none)
    (h2 : (runExec maxIt false evs1).cleaned = false) :
    scanOutcome maxIt false (evs1 ++ ChildEvent.stderrData s :: evs2)
      = some (Except.error notARepoErr) := by
  have hstderr : execStep maxIt (runExec maxIt false evs1) (ChildEvent.stderrData s)
      = { runExec maxIt false evs1 with
          cleaned := true
          settled := some (Except.error notARepoErr) } := by
    unfold execStep
    rw [if_neg (by rw [h2]; simp)]
    simp only [hf, if_true]
    rw [show settleOnce (runExec maxIt false evs1).settled (Except.error notARepoErr)
          = some (Except.error notARepoErr) by rw [h1]; rfl]
  have hfull : runExec maxIt false (evs1 ++ ChildEvent.stderrData s :: evs2)
      = { runExec maxIt false evs1 with
          cleaned := true
          settled := some (Except.error notARepoErr) } := by
    unfold runExec
    rw [List.foldl_append, List.foldl_cons]
    rw [show (evs1.foldl (execStep maxIt) (initExec false))
          = runExec maxIt false evs1 from rfl]
    rw [hstderr]
    exact foldl_execStep_cleaned_frozen maxIt _ evs2 rfl
  have hcm : catchMap notARepoErr = notARepoErr := by decide
  unfold scanOutcome
  rw [hfull]
  simp only
  rw [hcm]

/-- C9 witness: the fatal text arrives in one chunk, the process then exits
with code 0 — the rejection stands regardless of the exit code. -/
theorem stderr_fatal_chunk_rejects_witness :
    (strIncludes "fatal: not a git repository" "fatal" = true ∧
      (runExec 5 false []).settled = none ∧
      (runExec 5 false []).cleaned = false) ∧
    scanOutcome 5 false
        ([] ++ ChildEvent.stderrData "fatal: not a git repository"
          :: [ChildEvent.close 0])
      = some (Except.error notARepoErr) :=
  ⟨⟨by decide, by decide, by decide⟩,
   stderr_fatal_chunk_rejects 5 [] [ChildEvent.close 0]
     "fatal: not a git repository" (by decide) (by decide) (by decide)⟩

/-- C9 counterexample: the error stream as a whole contains "fatal", but
split across two chunks neither chunk does; the scan then resolves
successfully instead of failing, refuting the claim stated over the whole
stream. -/
theorem stderr_fatal_split_counterexample :
    scanOutcome 10 false
        [ChildEvent.stderrData "fa", ChildEvent.stderrData "tal", ChildEvent.close 1]
      = some (Except.ok ⟨[], false⟩) ∧
    strIncludes ("fa" ++ "tal") "fatal" = true ∧
    strIncludes "fa" "fatal" = false ∧
    strIncludes "tal" "fatal" = false := by
  refine ⟨by decide, by decide, by decide, by decide⟩

/-- C10: the cache lookup precedes any check of the cancellation signal —
with an unexpired resolved entry present, the call returns the cached value
and unchanged state even when the signal is already aborted; cancellation is
observed only on a cache miss, where a pre-aborted signal rejects the
started scan. -/
theorem cache_hit_precedes_abort (s : SysState) (cwd : String) (n now : Nat)
    (e : CacheEntry) (v : ListResult)
    (h1 : cacheGet s.cache (mkKey cwd n) = some e)
    (h2 : e.value = some v) (h3 : now < e.expires) :
    (∀ ab : Bool, listIgnoredFilesCall s cwd n now ab = (CallOutcome.value v, s)) ∧
    (∀ (maxIt : Nat) (evs : List ChildEvent),
      scanOutcome maxIt true evs = some (Except.error cancelledErr)) := by
  constructor
  · intro ab
    simp only [listIgnoredFilesCall, h1, hitValue, h2, if_pos h3]
  · intro maxIt evs
    exact (preAborted_outcome maxIt evs).1

/-- C10 witness. -/
theorem cache_hit_precedes_abort_witness :
    (cacheGet (SysState.cache ⟨[(mkKey "w" 2, ⟨some ⟨["y"], true⟩, 50, none⟩)], 3, 4⟩)
        (mkKey "w" 2) = some ⟨some ⟨["y"], true⟩, 50, none⟩ ∧
      CacheEntry.value ⟨some ⟨["y"], true⟩, 50, none⟩ = some ⟨["y"], true⟩ ∧
      (7 : Nat) < CacheEntry.expires ⟨some ⟨["y"], true⟩, 50, none⟩) ∧
    ((∀ ab : Bool,
        listIgnoredFilesCall ⟨[(mkKey "w" 2, ⟨some ⟨["y"], true⟩, 50, none⟩)], 3, 4⟩
            "w" 2 7 ab
          = (CallOutcome.value ⟨["y"], true⟩,
             ⟨[(mkKey "w" 2, ⟨some ⟨["y"], true⟩, 50, none⟩)], 3, 4⟩)) ∧
      (∀ (maxIt : Nat) (evs : List ChildEvent),
        scanOutcome maxIt true evs = some (Except.error cancelledErr))) :=
  ⟨⟨by decide, by decide, by decide⟩,
   cache_hit_precedes_abort ⟨[(mkKey "w" 2, ⟨some ⟨["y"], true⟩, 50, none⟩)], 3, 4⟩
     "w" 2 7 ⟨some ⟨["y"], true⟩, 50, none⟩ ⟨["y"], true⟩
     (by decide) (by decide) (by decide)⟩

example : parseGitZOutput "" = [] := by decide

example : jsSplitNul "" = [""] := by decide

example : lexCmp "a".data "A".data = Ordering.eq := by decide

example : scanStream 2 [['a', nulChar, 'b', nulChar]] 0
    = some (Except.ok ⟨["a", "b"], true⟩) := by decide

example : scanStream 3 [['a', nulChar], ['b']] 0
    = some (Except.ok ⟨["a", "b"], false⟩) := by decide

example : scanOutcome 3 true [ChildEvent.data ['a', nulChar]]
    = some (Except.error cancelledErr) := by decide

example : scanOutcome 3 false
    [ChildEvent.stderrData "fatal: not a git repository", ChildEvent.close 128]
    = some (Except.error notARepoErr) := by decide
